import Mathlib

/-!
Verification development for the arithmetic expression evaluator in
`Source Code/main.cpp` (tokenizer, shunting-yard converter, RPN evaluator).

Modelling conventions:
* C++ `double` values are modelled as exact rationals (`ℚ`).  Every numeric
  scenario exercised by the claims involves small integer values on which
  IEEE double arithmetic is exact, so the idealisation is faithful there.
  `std::pow` with a non-integer exponent and floating-point rounding/overflow
  are outside the rational model and are not exercised by any claim.
* `std::stod` can throw `std::invalid_argument`; the lexemes reaching it are
  exactly the tokenizer's number lexemes (strings of digits and dots), and
  `stodQ` models `std::stod`'s behaviour on that alphabet: it parses the
  longest "digits [ '.' digits ]" head of the string and fails when no digit
  is consumed (e.g. a lone ".").
* The tokenizer's early `return {{c, INVALID}}` (which discards all tokens
  collected so far) is modelled by threading `Except Char`: an invalid
  character aborts the scan, and the `tokenize` wrapper materialises the
  single-element INVALID list that the C++ function returns.
* The tokenizer scan consumes several characters at once in the number
  branch, so it is written with an explicit fuel argument (`tokenizeGo`),
  structurally recursive on the fuel; `tokenizeGo_fuel` shows the result
  does not depend on the fuel as long as it is at least the input length,
  and `tokenize` supplies exactly the input length.
-/

namespace CalcEval

/-- TokenType of main.cpp: the four kinds of tokens. -/
inductive TokenType where
  | NUMBER
  | OPERATOR
  | PARENTHESIS
  | INVALID
deriving DecidableEq, Repr

/-- Token of main.cpp: a lexeme string together with its kind. -/
structure Token where
  value : String
  type : TokenType
deriving DecidableEq, Repr

/-- EnhancedTokenizer::isOperator: the six binary operator characters. -/
def isOperatorChar (c : Char) : Bool :=
  c = '+' || c = '-' || c = '*' || c = '/' || c = '%' || c = '^'

/-- Characters that continue a number lexeme: digits and the decimal point
(the loop condition `std::isdigit(c) || c == '.'`). -/
def isNumChar (c : Char) : Bool :=
  c.isDigit || c = '.'

/-- C `isspace` in the default locale: space, tab, newline, vertical tab,
form feed, carriage return. -/
def isSpaceChar (c : Char) : Bool :=
  c = ' ' || c = '\t' || c = '\n' || c = '\x0b' || c = '\x0c' || c = '\r'

/-- Characters the tokenizer accepts without aborting. -/
def isValidChar (c : Char) : Bool :=
  isNumChar c || isOperatorChar c || c = '(' || c = ')' || isSpaceChar c

/-- EnhancedTokenizer::tokenize, main loop.  `fuel` only bounds the
recursion (it is at least the number of characters left); the boolean is
the `mayBeUnary` flag.  `.error c` models the early
`return std::vector<Token>{{std::string(1, c), TokenType::INVALID}}`. -/
def tokenizeGo : Nat → List Char → Bool → Except Char (List Token)
  | 0, _, _ => .ok []
  | fuel + 1, cs, mayBeUnary =>
    match cs with
    | [] => .ok []
    | c :: rest =>
      if isNumChar c then
        (tokenizeGo fuel (rest.dropWhile isNumChar) false).map
          (fun ts => ⟨⟨c :: rest.takeWhile isNumChar⟩, .NUMBER⟩ :: ts)
      else if isOperatorChar c then
        if c = '-' && mayBeUnary then
          (tokenizeGo fuel rest true).map (fun ts => ⟨"~", .OPERATOR⟩ :: ts)
        else if c = '+' && mayBeUnary then
          tokenizeGo fuel rest true
        else
          (tokenizeGo fuel rest true).map (fun ts => ⟨⟨[c]⟩, .OPERATOR⟩ :: ts)
      else if c = '(' || c = ')' then
        (tokenizeGo fuel rest (c = '(')).map
          (fun ts => ⟨⟨[c]⟩, .PARENTHESIS⟩ :: ts)
      else if isSpaceChar c then
        tokenizeGo fuel rest mayBeUnary
      else
        .error c

/-- The tokenizer loop at its canonical fuel (the length of the input). -/
def tokenizeL (cs : List Char) (b : Bool) : Except Char (List Token) :=
  tokenizeGo cs.length cs b

/-- EnhancedTokenizer::tokenize: scan the whole string with the
`mayBeUnary` flag initially true; an aborted scan returns the
single-element INVALID list of the C++ code. -/
def tokenize (s : String) : List Token :=
  match tokenizeL s.toList true with
  | .ok ts => ts
  | .error c => [⟨⟨[c]⟩, .INVALID⟩]

/-- Operator precedence map of ImprovedParser::parse.  `std::map::operator[]`
yields the default value 0 for any key outside the seven entries, in
particular for `"("`. -/
def precedence (s : String) : Nat :=
  if s = "~" then 4
  else if s = "^" then 3
  else if s = "*" then 2
  else if s = "/" then 2
  else if s = "%" then 2
  else if s = "+" then 1
  else if s = "-" then 1
  else 0

/-- The operator-branch while loop of ImprovedParser::parse: pop stacked
tokens to the output while the top's precedence is greater than or equal to
the incoming operator's.  Returns the popped tokens in pop order and the
remaining stack. -/
def popWhileGE : List Token → String → List Token × List Token
  | [], _ => ([], [])
  | t :: rest, op =>
    if precedence op ≤ precedence t.value then
      let r := popWhileGE rest op
      (t :: r.1, r.2)
    else
      ([], t :: rest)

/-- The close-parenthesis while loop of ImprovedParser::parse: pop stacked
tokens to the output until a token with value "(" is on top (or the stack
empties).  Returns the popped tokens in pop order and the remaining stack. -/
def popToLParen : List Token → List Token × List Token
  | [] => ([], [])
  | t :: rest =>
    if t.value = "(" then ([], t :: rest)
    else
      let r := popToLParen rest
      (t :: r.1, r.2)

/-- The final while loop of ImprovedParser::parse: pop the remaining stack
to the output, failing if a parenthesis is found on it. -/
def drainStack : List Token → Option (List Token)
  | [] => some []
  | t :: rest =>
    if t.type = .PARENTHESIS then none
    else (drainStack rest).map (fun l => t :: l)

/-- The token loop of ImprovedParser::parse, carrying the operator stack and
the output queue.  `none` models the three `return std::queue<Token>()`
failure sites: an INVALID input token, a ")" that empties the stack without
meeting "(", and a parenthesis left on the stack at the end. -/
def parseAux : List Token → List Token → List Token → Option (List Token)
  | [], opStack, out => (drainStack opStack).map (fun l => out ++ l)
  | t :: rest, opStack, out =>
    if t.type = .INVALID then none
    else if t.type = .NUMBER then parseAux rest opStack (out ++ [t])
    else if t.type = .OPERATOR then
      parseAux rest (t :: (popWhileGE opStack t.value).2)
        (out ++ (popWhileGE opStack t.value).1)
    else
      if t.value = "(" then parseAux rest (t :: opStack) out
      else
        match popToLParen opStack with
        | (popped, _ :: st) => parseAux rest st (out ++ popped)
        | (_, []) => none

/-- ImprovedParser::parse with the failure sites kept explicit as `none`. -/
def parseE (tokens : List Token) : Option (List Token) :=
  parseAux tokens [] []

/-- ImprovedParser::parse exactly as the caller observes it: every failure
site returns the empty queue. -/
def parse (tokens : List Token) : List Token :=
  (parseE tokens).getD []

/-- Digit run to a natural number. -/
def digitsToNat (l : List Char) : Nat :=
  l.foldl (fun n c => 10 * n + (c.toNat - 48)) 0

/-- Behaviour of `std::stod` on the tokenizer's number lexemes (strings over
digits and dots): parse the longest `digits [ '.' digits ]` head; fail
(`std::invalid_argument`) when that head contains no digit, e.g. ".".
Characters after the parsed head are ignored, as `std::stod` ignores a
trailing unparsed suffix. -/
def stodQ (s : String) : Option ℚ :=
  let cs := s.toList
  let intPart := cs.takeWhile Char.isDigit
  match cs.dropWhile Char.isDigit with
  | '.' :: rest2 =>
    let fracPart := rest2.takeWhile Char.isDigit
    if intPart = [] ∧ fracPart = [] then none
    else some ((digitsToNat intPart : ℚ) + (digitsToNat fracPart : ℚ) / 10 ^ fracPart.length)
  | _ => if intPart = [] then none else some (digitsToNat intPart)

/-- Truncation toward zero, as C++ floating-point conversion to integer. -/
def truncQ (x : ℚ) : ℤ :=
  if 0 ≤ x then ⌊x⌋ else ⌈x⌉

/-- `std::fmod l r` (for nonzero `r`): `l - trunc(l / r) * r`. -/
def fmodQ (l r : ℚ) : ℚ :=
  l - (truncQ (l / r) : ℚ) * r

/-- `std::pow` on the rational model: exact for integer exponents (the only
exponents the claims exercise); a non-integer exponent generally has no
rational power, and that unexercised case is mapped to 0. -/
def powQ (a b : ℚ) : ℚ :=
  if b.den = 1 then a ^ b.num else 0

/-- RefinedEvaluator::applyOperator: compute the binary result, `none`
modelling the final `throw std::runtime_error("Unknown operator")`. -/
def applyOperator (left right : ℚ) (op : String) : Option ℚ :=
  if op = "+" then some (left + right)
  else if op = "-" then some (left - right)
  else if op = "*" then some (left * right)
  else if op = "/" then some (left / right)
  else if op = "%" then some (fmodQ left right)
  else if op = "^" then some (powQ left right)
  else if op = "~" then some (-left)
  else none

/-- The distinct `std::runtime_error` conditions thrown by
RefinedEvaluator::evaluate and applyOperator.  `insufficientOperands`
carries the operator lexeme (the unary site only ever reaches it with
lexeme "~"). -/
inductive ExprError where
  | insufficientOperands (op : String)
  | divisionByZero
  | invalidExpressionFormat
  | unknownOperator
deriving DecidableEq, Repr

/-- Exceptions escaping RefinedEvaluator::evaluate: `runtime` is a
`std::runtime_error` (caught by handleExpression); `stodFailure` is the
`std::invalid_argument` thrown by `std::stod`, which handleExpression does
NOT catch. -/
inductive EvalExn where
  | runtime (e : ExprError)
  | stodFailure (lexeme : String)
deriving DecidableEq, Repr

/-- The token loop of RefinedEvaluator::evaluate, carrying the evaluation
stack (head = top).  A binary operator pops `right` first, `left` second. -/
def evaluateAux : List Token → List ℚ → Except EvalExn ℚ
  | [], stack =>
    match stack with
    | [v] => .ok v
    | _ => .error (.runtime .invalidExpressionFormat)
  | t :: rest, stack =>
    if t.type = .NUMBER then
      match stodQ t.value with
      | none => .error (.stodFailure t.value)
      | some q => evaluateAux rest (q :: stack)
    else if t.type = .OPERATOR then
      if t.value = "~" then
        match stack with
        | [] => .error (.runtime (.insufficientOperands "~"))
        | q :: s => evaluateAux rest (-q :: s)
      else
        match stack with
        | right :: left :: s =>
          if (t.value = "/" ∨ t.value = "%") ∧ right = 0 then
            .error (.runtime .divisionByZero)
          else
            match applyOperator left right t.value with
            | some v => evaluateAux rest (v :: s)
            | none => .error (.runtime .unknownOperator)
        | _ => .error (.runtime (.insufficientOperands t.value))
    else
      evaluateAux rest stack

/-- RefinedEvaluator::evaluate: run the loop on an empty stack. -/
def evaluate (parsed : List Token) : Except EvalExn ℚ :=
  evaluateAux parsed []

/-- The empty-or-single-INVALID check of handleExpression:
`tokens.empty() || (tokens.size() == 1 && tokens.front().type == INVALID)`. -/
def isInvalidShape : List Token → Bool
  | [] => true
  | [t] => t.type = .INVALID
  | _ => false

/-- Lexemes of a token sequence joined with single spaces, as a character
list (the canonical form of the round-trip property in the specification). -/
def joinLexemes : List Token → List Char
  | [] => []
  | [t] => t.value.toList
  | t :: u :: ts => t.value.toList ++ ' ' :: joinLexemes (u :: ts)

/-- Outcome of one expression evaluation as handleExpression observes it.
`crash` records the uncaught `std::invalid_argument` escaping the
`catch (const std::runtime_error&)` handler and terminating the program. -/
inductive PipelineResult where
  | invalidExpression
  | value (q : ℚ)
  | evalError (e : ExprError)
  | crash (lexeme : String)
deriving DecidableEq, Repr

/-- The core of handleExpression: tokenize, parse, evaluate, classifying the
outcome exactly as the C++ control flow does. -/
def evalExpression (s : String) : PipelineResult :=
  let tokens := tokenize s
  if isInvalidShape tokens then .invalidExpression
  else
    let parsed := parse tokens
    if parsed = [] then .invalidExpression
    else
      match evaluate parsed with
      | .ok v => .value v
      | .error (.runtime e) => .evalError e
      | .error (.stodFailure lex) => .crash lex

/-! Helper lemmas about takeWhile and dropWhile runs. -/

theorem length_dropWhile_le_self (p : Char → Bool) (l : List Char) :
    (l.dropWhile p).length ≤ l.length := by
  induction l with
  | nil => simp [List.dropWhile]
  | cons x xs ih =>
    rw [List.dropWhile_cons]
    split
    · exact Nat.le_trans ih (Nat.le_succ _)
    · exact Nat.le_refl _

theorem mem_of_mem_dropWhile {p : Char → Bool} {l : List Char} {x : Char}
    (h : x ∈ l.dropWhile p) : x ∈ l := by
  induction l with
  | nil => simp [List.dropWhile] at h
  | cons y ys ih =>
    rw [List.dropWhile_cons] at h
    split at h
    · exact List.mem_cons_of_mem _ (ih h)
    · exact h

theorem takeWhile_append_all {p : Char → Bool} :
    ∀ (l r : List Char), (∀ x ∈ l, p x = true) →
      (∀ y ys, r = y :: ys → p y = false) →
      (l ++ r).takeWhile p = l ∧ (l ++ r).dropWhile p = r := by
  intro l
  induction l with
  | nil =>
    intro r _ hr
    cases r with
    | nil => simp
    | cons y ys =>
      have := hr y ys rfl
      simp [List.takeWhile_cons, List.dropWhile_cons, this]
  | cons x xs ih =>
    intro r hl hr
    have hx : p x = true := hl x (List.mem_cons_self _ _)
    have hxs : ∀ z ∈ xs, p z = true := fun z hz => hl z (List.mem_cons_of_mem _ hz)
    have hih := ih r hxs hr
    simp [List.takeWhile_cons, List.dropWhile_cons, hx, hih.1, hih.2]

theorem run_split {p : Char → Bool} :
    ∀ (l : List Char) (c : Char) (r : List Char), p c = false →
      (l ++ c :: r).takeWhile p = l.takeWhile p ∧
      (l ++ c :: r).dropWhile p = l.dropWhile p ++ c :: r := by
  intro l
  induction l with
  | nil =>
    intro c r hc
    simp [List.takeWhile_cons, List.dropWhile_cons, hc]
  | cons x xs ih =>
    intro c r hc
    have hih := ih c r hc
    by_cases hx : p x = true
    · simp [List.takeWhile_cons, List.dropWhile_cons, hx, hih.1, hih.2]
    · simp only [Bool.not_eq_true] at hx
      simp [List.takeWhile_cons, List.dropWhile_cons, hx]

/-! Fuel does not matter as long as it is at least the input length. -/

theorem tokenizeGo_nil (f : Nat) (b : Bool) : tokenizeGo f [] b = .ok [] := by
  cases f <;> rfl

theorem tokenizeGo_fuel : ∀ (f g : Nat) (cs : List Char) (b : Bool),
    cs.length ≤ f → cs.length ≤ g → tokenizeGo f cs b = tokenizeGo g cs b := by
  intro f
  induction f with
  | zero =>
    intro g cs b hf _
    have hcs : cs = [] := List.length_eq_zero.mp (Nat.le_zero.mp hf)
    subst hcs
    rw [tokenizeGo_nil, tokenizeGo_nil]
  | succ f ih =>
    intro g cs b hf hg
    cases cs with
    | nil => rw [tokenizeGo_nil, tokenizeGo_nil]
    | cons c rest =>
      cases g with
      | zero => simp at hg
      | succ g =>
        have hrf : rest.length ≤ f := Nat.le_of_succ_le_succ hf
        have hrg : rest.length ≤ g := Nat.le_of_succ_le_succ hg
        have hdf : (rest.dropWhile isNumChar).length ≤ f :=
          Nat.le_trans (length_dropWhile_le_self _ _) hrf
        have hdg : (rest.dropWhile isNumChar).length ≤ g :=
          Nat.le_trans (length_dropWhile_le_self _ _) hrg
        simp only [tokenizeGo]
        rw [ih g _ false hdf hdg, ih g _ true hrf hrg, ih g _ b hrf hrg,
          ih g _ (c = '(') hrf hrg]

/-! Character-class facts used to pick branches. -/

theorem op_not_num {c : Char} (h : isOperatorChar c = true) : isNumChar c = false := by
  simp only [isOperatorChar, Bool.or_eq_true, decide_eq_true_eq] at h
  rcases h with ((((h | h) | h) | h) | h) | h <;> subst h <;> decide

theorem op_cases {c : Char} (h : isOperatorChar c = true) :
    c = '+' ∨ c = '-' ∨ c = '*' ∨ c = '/' ∨ c = '%' ∨ c = '^' := by
  simp only [isOperatorChar, Bool.or_eq_true, decide_eq_true_eq] at h
  tauto

theorem space_cases {c : Char} (h : isSpaceChar c = true) :
    c = ' ' ∨ c = '\t' ∨ c = '\n' ∨ c = '\x0b' ∨ c = '\x0c' ∨ c = '\r' := by
  simp only [isSpaceChar, Bool.or_eq_true, decide_eq_true_eq] at h
  tauto

theorem invalid_components {c : Char} (h : isValidChar c = false) :
    isNumChar c = false ∧ isOperatorChar c = false ∧
      (c = '(' → False) ∧ (c = ')' → False) ∧ isSpaceChar c = false := by
  simp only [isValidChar, Bool.or_eq_false_iff, decide_eq_false_iff_not] at h
  tauto

/-! One rewriting equation per branch of the tokenizer loop, stated at the
canonical fuel. -/

theorem tokenizeL_nil (b : Bool) : tokenizeL [] b = .ok [] := rfl

theorem tokenizeL_num {c : Char} (rest : List Char) (b : Bool)
    (h : isNumChar c = true) :
    tokenizeL (c :: rest) b =
      (tokenizeL (rest.dropWhile isNumChar) false).map
        (fun ts => ⟨⟨c :: rest.takeWhile isNumChar⟩, .NUMBER⟩ :: ts) := by
  show tokenizeGo (c :: rest).length (c :: rest) b = _
  rw [List.length_cons]
  simp only [tokenizeGo, h, if_true]
  rw [tokenizeGo_fuel rest.length (rest.dropWhile isNumChar).length _ false
    (length_dropWhile_le_self _ _) (Nat.le_refl _)]
  rfl

theorem tokenizeL_tilde (rest : List Char) :
    tokenizeL ('-' :: rest) true =
      (tokenizeL rest true).map (fun ts => ⟨"~", .OPERATOR⟩ :: ts) := by
  show tokenizeGo (rest.length + 1) ('-' :: rest) true = _
  simp only [tokenizeGo]
  rfl

theorem tokenizeL_unary_plus (rest : List Char) :
    tokenizeL ('+' :: rest) true = tokenizeL rest true := by
  show tokenizeGo (rest.length + 1) ('+' :: rest) true = _
  simp only [tokenizeGo]
  rfl

theorem tokenizeL_op {c : Char} (rest : List Char) (b : Bool)
    (hop : isOperatorChar c = true)
    (hm : (decide (c = '-') && b) = false) (hp : (decide (c = '+') && b) = false) :
    tokenizeL (c :: rest) b =
      (tokenizeL rest true).map (fun ts => ⟨⟨[c]⟩, .OPERATOR⟩ :: ts) := by
  show tokenizeGo (rest.length + 1) (c :: rest) b = _
  simp only [tokenizeGo, op_not_num hop, hop, hm, hp]
  rfl

theorem tokenizeL_paren {c : Char} (rest : List Char) (b : Bool)
    (h : c = '(' ∨ c = ')') :
    tokenizeL (c :: rest) b =
      (tokenizeL rest (c = '(')).map
        (fun ts => ⟨⟨[c]⟩, .PARENTHESIS⟩ :: ts) := by
  show tokenizeGo (rest.length + 1) (c :: rest) b = _
  rcases h with h | h <;> subst h <;> simp only [tokenizeGo] <;> rfl

theorem tokenizeL_space {c : Char} (rest : List Char) (b : Bool)
    (h : isSpaceChar c = true) :
    tokenizeL (c :: rest) b = tokenizeL rest b := by
  show tokenizeGo (rest.length + 1) (c :: rest) b = _
  rcases space_cases h with h | h | h | h | h | h <;> subst h <;>
    simp only [tokenizeGo] <;> rfl

theorem tokenizeL_err {c : Char} (rest : List Char) (b : Bool)
    (h : isValidChar c = false) :
    tokenizeL (c :: rest) b = .error c := by
  obtain ⟨h1, h2, h3, h4, h5⟩ := invalid_components h
  show tokenizeGo (rest.length + 1) (c :: rest) b = _
  simp only [tokenizeGo, h1, h2, h5, Bool.false_and, if_false,
    decide_eq_false h3, decide_eq_false h4, Bool.or_self]
  simp

/-! The scan aborts at the first invalid character, discarding everything
collected before it. -/

theorem tokenizeL_first_invalid :
    ∀ (n : Nat) (pre : List Char) (c : Char) (post : List Char) (b : Bool),
      pre.length ≤ n → (∀ x ∈ pre, isValidChar x = true) →
      isValidChar c = false →
      tokenizeL (pre ++ c :: post) b = .error c := by
  intro n
  induction n with
  | zero =>
    intro pre c post b hlen hpre hc
    have hp : pre = [] := List.length_eq_zero.mp (Nat.le_zero.mp hlen)
    subst hp
    exact tokenizeL_err _ _ hc
  | succ n ih =>
    intro pre c post b hlen hpre hc
    cases pre with
    | nil => exact tokenizeL_err _ _ hc
    | cons x xs =>
      have hx : isValidChar x = true := hpre x (List.mem_cons_self _ _)
      have hxs : ∀ z ∈ xs, isValidChar z = true :=
        fun z hz => hpre z (List.mem_cons_of_mem _ hz)
      have hlen2 : xs.length ≤ n := Nat.le_of_succ_le_succ hlen
      rw [List.cons_append]
      by_cases hnum : isNumChar x = true
      · have hcn : isNumChar c = false := (invalid_components hc).1
        rw [tokenizeL_num _ _ hnum, (run_split xs c post hcn).2,
          ih (xs.dropWhile isNumChar) c post false
            (Nat.le_trans (length_dropWhile_le_self _ _) hlen2)
            (fun z hz => hxs z (mem_of_mem_dropWhile hz)) hc]
        rfl
      · by_cases hop : isOperatorChar x = true
        · by_cases hmb : (decide (x = '-') && b) = true
          · obtain ⟨hx1, hb⟩ := Bool.and_eq_true_iff.mp hmb
            have hx2 : x = '-' := of_decide_eq_true hx1
            subst hx2; subst hb
            rw [tokenizeL_tilde, ih xs c post true hlen2 hxs hc]
            rfl
          · by_cases hpb : (decide (x = '+') && b) = true
            · obtain ⟨hx1, hb⟩ := Bool.and_eq_true_iff.mp hpb
              have hx2 : x = '+' := of_decide_eq_true hx1
              subst hx2; subst hb
              rw [tokenizeL_unary_plus]
              exact ih xs c post true hlen2 hxs hc
            · rw [tokenizeL_op _ _ hop (Bool.not_eq_true _ ▸ hmb)
                (Bool.not_eq_true _ ▸ hpb),
                ih xs c post true hlen2 hxs hc]
              rfl
        · by_cases hpar : x = '(' ∨ x = ')'
          · rw [tokenizeL_paren _ _ hpar, ih xs c post _ hlen2 hxs hc]
            rfl
          · have hsp : isSpaceChar x = true := by
              simp only [isValidChar, Bool.or_eq_true, decide_eq_true_eq] at hx
              rcases hx with ((((h | h) | h) | h) | h)
              · exact absurd h hnum
              · exact absurd h hop
              · exact absurd (Or.inl h) hpar
              · exact absurd (Or.inr h) hpar
              · exact h
            rw [tokenizeL_space _ _ hsp]
            exact ih xs c post b hlen2 hxs hc

/-! Round-trip: re-tokenizing the space-joined lexemes reproduces the token
sequence, provided no unary-minus pseudo-token "~" occurs (the "~" lexeme is
not in the operator set, so it would re-tokenize as INVALID). -/

theorem toList_mk (l : List Char) : (⟨l⟩ : String).toList = l := rfl

theorem takeWhile_all {p : Char → Bool} (l : List Char)
    (h : ∀ x ∈ l, p x = true) : l.takeWhile p = l ∧ l.dropWhile p = [] := by
  have := takeWhile_append_all l [] h (by intro y ys hy; cases hy)
  simpa using this

theorem retok_aux :
    ∀ (n : Nat) (cs : List Char) (b : Bool) (ts : List Token),
      cs.length ≤ n →
      tokenizeL cs b = .ok ts →
      (∀ t ∈ ts, t.value ≠ "~") →
      tokenizeL (joinLexemes ts) b = .ok ts := by
  intro n
  induction n with
  | zero =>
    intro cs b ts hlen htok _
    have hcs : cs = [] := List.length_eq_zero.mp (Nat.le_zero.mp hlen)
    subst hcs
    rw [tokenizeL_nil] at htok
    injection htok with h
    subst h
    exact tokenizeL_nil b
  | succ n ih =>
    intro cs b ts hlen htok htil
    cases cs with
    | nil =>
      rw [tokenizeL_nil] at htok
      injection htok with h
      subst h
      exact tokenizeL_nil b
    | cons c rest =>
      have hlen2 : rest.length ≤ n := Nat.le_of_succ_le_succ hlen
      by_cases hnum : isNumChar c = true
      · rw [tokenizeL_num _ _ hnum] at htok
        cases hrec : tokenizeL (rest.dropWhile isNumChar) false with
        | error e => rw [hrec] at htok; simp [Except.map] at htok
        | ok ts1 =>
          rw [hrec] at htok
          simp only [Except.map] at htok
          injection htok with h
          subst h
          have hts1 : ∀ t ∈ ts1, t.value ≠ "~" :=
            fun t ht => htil t (List.mem_cons_of_mem _ ht)
          have hih : tokenizeL (joinLexemes ts1) false = .ok ts1 :=
            ih _ false ts1
              (Nat.le_trans (length_dropWhile_le_self _ _) hlen2) hrec hts1
          have htw : ∀ z ∈ rest.takeWhile isNumChar, isNumChar z = true :=
            fun z hz => List.mem_takeWhile_imp hz
          cases ts1 with
          | nil =>
            show tokenizeL (⟨c :: rest.takeWhile isNumChar⟩ : String).toList b = _
            rw [toList_mk, tokenizeL_num _ _ hnum,
              (takeWhile_all _ htw).1, (takeWhile_all _ htw).2, tokenizeL_nil]
            rfl
          | cons u us =>
            show tokenizeL
              ((⟨c :: rest.takeWhile isNumChar⟩ : String).toList ++
                ' ' :: joinLexemes (u :: us)) b = _
            rw [toList_mk, List.cons_append, tokenizeL_num _ _ hnum,
              (takeWhile_append_all _ _ htw (by intro y ys hy; injection hy with h1 _; subst h1; decide)).1,
              (takeWhile_append_all _ _ htw (by intro y ys hy; injection hy with h1 _; subst h1; decide)).2,
              tokenizeL_space _ _ (by decide), hih]
            rfl
      · by_cases hop : isOperatorChar c = true
        · by_cases hmb : (decide (c = '-') && b) = true
          · obtain ⟨hx1, hb⟩ := Bool.and_eq_true_iff.mp hmb
            have hx2 : c = '-' := of_decide_eq_true hx1
            subst hx2; subst hb
            rw [tokenizeL_tilde] at htok
            cases hrec : tokenizeL rest true with
            | error e => rw [hrec] at htok; simp [Except.map] at htok
            | ok ts1 =>
              rw [hrec] at htok
              simp only [Except.map] at htok
              injection htok with h
              subst h
              exact absurd rfl (htil _ (List.mem_cons_self _ _))
          · by_cases hpb : (decide (c = '+') && b) = true
            · obtain ⟨hx1, hb⟩ := Bool.and_eq_true_iff.mp hpb
              have hx2 : c = '+' := of_decide_eq_true hx1
              subst hx2; subst hb
              rw [tokenizeL_unary_plus] at htok
              exact ih rest true ts hlen2 htok htil
            · have hmb2 : (decide (c = '-') && b) = false := Bool.not_eq_true _ ▸ hmb
              have hpb2 : (decide (c = '+') && b) = false := Bool.not_eq_true _ ▸ hpb
              rw [tokenizeL_op _ _ hop hmb2 hpb2] at htok
              cases hrec : tokenizeL rest true with
              | error e => rw [hrec] at htok; simp [Except.map] at htok
              | ok ts1 =>
                rw [hrec] at htok
                simp only [Except.map] at htok
                injection htok with h
                subst h
                have hts1 : ∀ t ∈ ts1, t.value ≠ "~" :=
                  fun t ht => htil t (List.mem_cons_of_mem _ ht)
                have hih : tokenizeL (joinLexemes ts1) true = .ok ts1 :=
                  ih rest true ts1 hlen2 hrec hts1
                cases ts1 with
                | nil =>
                  show tokenizeL (⟨[c]⟩ : String).toList b = _
                  rw [toList_mk, tokenizeL_op _ _ hop hmb2 hpb2, tokenizeL_nil]
                  rfl
                | cons u us =>
                  show tokenizeL
                    ((⟨[c]⟩ : String).toList ++ ' ' :: joinLexemes (u :: us)) b = _
                  rw [toList_mk, List.cons_append, List.nil_append,
                    tokenizeL_op _ _ hop hmb2 hpb2,
                    tokenizeL_space _ _ (by decide), hih]
                  rfl
        · by_cases hpar : c = '(' ∨ c = ')'
          · rw [tokenizeL_paren _ _ hpar] at htok
            cases hrec : tokenizeL rest (decide (c = '(')) with
            | error e => rw [hrec] at htok; simp [Except.map] at htok
            | ok ts1 =>
              rw [hrec] at htok
              simp only [Except.map] at htok
              injection htok with h
              subst h
              have hts1 : ∀ t ∈ ts1, t.value ≠ "~" :=
                fun t ht => htil t (List.mem_cons_of_mem _ ht)
              have hih : tokenizeL (joinLexemes ts1) (decide (c = '(')) = .ok ts1 :=
                ih rest _ ts1 hlen2 hrec hts1
              cases ts1 with
              | nil =>
                show tokenizeL (⟨[c]⟩ : String).toList b = _
                rw [toList_mk, tokenizeL_paren _ _ hpar, tokenizeL_nil]
                rfl
              | cons u us =>
                show tokenizeL
                  ((⟨[c]⟩ : String).toList ++ ' ' :: joinLexemes (u :: us)) b = _
                rw [toList_mk, List.cons_append, List.nil_append,
                  tokenizeL_paren _ _ hpar,
                  tokenizeL_space _ _ (by decide), hih]
                rfl
          · by_cases hsp : isSpaceChar c = true
            · rw [tokenizeL_space _ _ hsp] at htok
              exact ih rest b ts hlen2 htok htil
            · have hinv : isValidChar c = false := by
                simp only [isValidChar, Bool.or_eq_false_iff,
                  decide_eq_false_iff_not]
                refine ⟨⟨⟨⟨?_, ?_⟩, ?_⟩, ?_⟩, ?_⟩
                · exact Bool.not_eq_true _ ▸ hnum
                · exact Bool.not_eq_true _ ▸ hop
                · exact fun h => hpar (Or.inl h)
                · exact fun h => hpar (Or.inr h)
                · exact Bool.not_eq_true _ ▸ hsp
              rw [tokenizeL_err _ _ hinv] at htok
              cases htok

/-! Converter facts. -/

theorem parseAux_invalid :
    ∀ (ts opStack out : List Token), (∃ t ∈ ts, t.type = .INVALID) →
      parseAux ts opStack out = none := by
  intro ts
  induction ts with
  | nil =>
    intro _ _ h
    obtain ⟨t, ht, _⟩ := h
    cases ht
  | cons t rest ih =>
    intro opStack out h
    by_cases hinv : t.type = .INVALID
    · simp only [parseAux]
      rw [if_pos hinv]
    · have hrest : ∃ u ∈ rest, u.type = .INVALID := by
        obtain ⟨u, hu, hut⟩ := h
        cases hu with
        | head => exact absurd hut hinv
        | tail _ hu2 => exact ⟨u, hu2, hut⟩
      simp only [parseAux]
      rw [if_neg hinv]
      by_cases hn : t.type = .NUMBER
      · rw [if_pos hn]
        exact ih _ _ hrest
      · rw [if_neg hn]
        by_cases ho : t.type = .OPERATOR
        · rw [if_pos ho]
          exact ih _ _ hrest
        · rw [if_neg ho]
          by_cases hv : t.value = "("
          · rw [if_pos hv]
            exact ih _ _ hrest
          · rw [if_neg hv]
            rcases hpp : popToLParen opStack with ⟨popped, st2⟩
            cases st2 with
            | nil => rfl
            | cons l st => exact ih _ _ hrest

/-- A "(" on the stack is never moved to the output by the precedence loop:
its default precedence 0 is strictly below every real operator's. -/
theorem popWhileGE_no_lparen :
    ∀ (stack : List Token) (op : String), 1 ≤ precedence op →
      ∀ t ∈ (popWhileGE stack op).1, t.value ≠ "(" := by
  intro stack
  induction stack with
  | nil =>
    intro op _ t ht
    cases ht
  | cons u rest ih =>
    intro op hop t ht
    by_cases hc : precedence op ≤ precedence u.value
    · simp only [popWhileGE] at ht
      rw [if_pos hc] at ht
      cases ht with
      | head =>
        intro hval
        rw [hval] at hc
        have : precedence "(" = 0 := rfl
        omega
      | tail _ ht2 => exact ih op hop t ht2
    · simp only [popWhileGE] at ht
      rw [if_neg hc] at ht
      cases ht

/-! Claim theorems. -/

/-- C1: the full pipeline returns 11 for "3 + 4 * 2", 14 for "(3 + 4) * 2",
8 for "2 ^ 3" and 64 (not 512) for "2 ^ 3 ^ 2": the ">=" pop rule makes
every operator, including "^", left-associative. -/
theorem C1_pipeline_examples :
    evalExpression "3 + 4 * 2" = .value 11 ∧
    evalExpression "(3 + 4) * 2" = .value 14 ∧
    evalExpression "2 ^ 3" = .value 8 ∧
    evalExpression "2 ^ 3 ^ 2" = .value 64 ∧
    evalExpression "2 ^ 3 ^ 2" ≠ .value 512 := by
  refine ⟨?_, ?_, ?_, ?_, ?_⟩
  · with_unfolding_all rfl
  · with_unfolding_all rfl
  · with_unfolding_all rfl
  · with_unfolding_all rfl
  · have h : evalExpression "2 ^ 3 ^ 2" = .value 64 := by with_unfolding_all rfl
    rw [h]
    intro hh
    injection hh with hq
    norm_num at hq

/-- C2 (code bug): the input ".", made only of allowed characters, reaches
std::stod with the unparsable lexeme "." and raises std::invalid_argument,
which the runtime_error handler of handleExpression does not catch: the
pipeline crashes instead of reporting a defined error. -/
theorem C2_stod_crash :
    evalExpression "." = .crash "." ∧
    isValidChar '.' = true ∧
    stodQ "." = none := by
  refine ⟨by with_unfolding_all rfl, rfl, rfl⟩

/-- C3: a '-' read while mayBeUnary is true becomes the "~" operator token
(a '+' in that position emits nothing), the evaluator negates one popped
operand for "~", and the pipeline returns -2 for "-5 + 3" and 8 for
"5 - -3". -/
theorem C3_unary_minus :
    (∀ cs, tokenizeL ('-' :: cs) true =
      (tokenizeL cs true).map (fun ts => ⟨"~", .OPERATOR⟩ :: ts)) ∧
    (∀ cs, tokenizeL ('+' :: cs) true = tokenizeL cs true) ∧
    (∀ rest q stack, evaluateAux (⟨"~", .OPERATOR⟩ :: rest) (q :: stack) =
      evaluateAux rest (-q :: stack)) ∧
    evalExpression "-5 + 3" = .value (-2) ∧
    evalExpression "5 - -3" = .value 8 := by
  refine ⟨tokenizeL_tilde, tokenizeL_unary_plus, fun rest q stack => rfl,
    by with_unfolding_all rfl, by with_unfolding_all rfl⟩

/-- C6: applying "/" or "%" with popped right operand 0 fails with the
DivisionByZero error, and both "5 / 0" and "5 % 0" end in that error. -/
theorem C6_division_by_zero :
    (∀ rest l stack, evaluateAux (⟨"/", .OPERATOR⟩ :: rest) (0 :: l :: stack) =
      .error (.runtime .divisionByZero)) ∧
    (∀ rest l stack, evaluateAux (⟨"%", .OPERATOR⟩ :: rest) (0 :: l :: stack) =
      .error (.runtime .divisionByZero)) ∧
    evalExpression "5 / 0" = .evalError .divisionByZero ∧
    evalExpression "5 % 0" = .evalError .divisionByZero := by
  refine ⟨fun rest l stack => rfl, fun rest l stack => rfl,
    by with_unfolding_all rfl, by with_unfolding_all rfl⟩

/-- C7: "~" on an empty stack fails with InsufficientOperands, a binary
operator with fewer than two stacked values fails with
InsufficientOperands, and a binary operator pops right first, left second
(shown by the subtraction step computing left - right with right the
stack top). -/
theorem C7_insufficient_operands :
    (∀ rest, evaluateAux (⟨"~", .OPERATOR⟩ :: rest) [] =
      .error (.runtime (.insufficientOperands "~"))) ∧
    (∀ (v : String) rest, v ≠ "~" → evaluateAux (⟨v, .OPERATOR⟩ :: rest) [] =
      .error (.runtime (.insufficientOperands v))) ∧
    (∀ (v : String) rest q, v ≠ "~" →
      evaluateAux (⟨v, .OPERATOR⟩ :: rest) [q] =
        .error (.runtime (.insufficientOperands v))) ∧
    (∀ rest r l stack, evaluateAux (⟨"-", .OPERATOR⟩ :: rest) (r :: l :: stack) =
      evaluateAux rest ((l - r) :: stack)) := by
  refine ⟨fun rest => rfl, ?_, ?_, fun rest r l stack => rfl⟩
  · intro v rest hv
    simp only [evaluateAux]
    rw [if_pos trivial, if_neg hv, if_neg (by intro h; cases h)]
  · intro v rest q hv
    simp only [evaluateAux]
    rw [if_pos trivial, if_neg hv, if_neg (by intro h; cases h)]

/-- C7 witness: the binary operator "+" on an empty stack fails with
InsufficientOperands "+". -/
theorem C7_witness :
    evaluateAux [⟨"+", .OPERATOR⟩] [] =
      .error (.runtime (.insufficientOperands "+")) :=
  C7_insufficient_operands.2.1 "+" [] (by decide)

/-- C8: once every token is consumed, exactly one remaining value is
returned; an empty stack or two or more values is the
InvalidExpressionFormat error, as for the input "3 4". -/
theorem C8_final_stack :
    (∀ q, evaluateAux [] [q] = .ok q) ∧
    evaluateAux [] [] = .error (.runtime .invalidExpressionFormat) ∧
    (∀ q r stack, evaluateAux [] (q :: r :: stack) =
      .error (.runtime .invalidExpressionFormat)) ∧
    evalExpression "3 4" = .evalError .invalidExpressionFormat := by
  refine ⟨fun q => rfl, rfl, fun q r stack => rfl, by with_unfolding_all rfl⟩

/-- C4: tokenizing a string whose first disallowed character is c returns
the single INVALID token holding c, discarding every token collected
before it. -/
theorem C4_first_invalid_aborts :
    ∀ (s : String) (pre : List Char) (c : Char) (post : List Char),
      s.toList = pre ++ c :: post →
      (∀ x ∈ pre, isValidChar x = true) →
      isValidChar c = false →
      tokenize s = [⟨⟨[c]⟩, .INVALID⟩] := by
  intro s pre c post hsplit hpre hc
  unfold tokenize tokenizeL
  rw [hsplit]
  rw [show tokenizeGo (pre ++ c :: post).length (pre ++ c :: post) true = .error c from
    tokenizeL_first_invalid pre.length pre c post true (Nat.le_refl _) hpre hc]

/-- C4 witness: tokenize "3 @ 4" is the single INVALID token holding the
at sign. -/
theorem C4_witness : tokenize "3 @ 4" = [⟨"@", .INVALID⟩] :=
  C4_first_invalid_aborts "3 @ 4" ['3', ' '] '@' [' ', '4'] rfl
    (by decide) (by decide)

/-- C5 counterexample: the converter also returns an empty sequence for the
token list of "()", although that run has no INVALID token and none of the
failure sites fires (parseE succeeds with an empty output). -/
theorem C5_counterexample :
    parse (tokenize "()") = [] ∧ parseE (tokenize "()") = some [] :=
  ⟨rfl, rfl⟩

/-- C5 (amended): each of the three failure situations yields an empty
sequence — any INVALID input token forces it, and "(3 + 4" and "3 + 4)"
fail — but an empty sequence is returned exactly when conversion either
fails or legitimately succeeds with no output tokens. -/
theorem C5_empty_output :
    (∀ (ts : List Token) (t : Token), t ∈ ts → t.type = .INVALID →
      parse ts = []) ∧
    parseE (tokenize "(3 + 4") = none ∧
    parseE (tokenize "3 + 4)") = none ∧
    parse (tokenize "(3 + 4") = [] ∧
    parse (tokenize "3 + 4)") = [] ∧
    (∀ ts, parse ts = [] ↔ (parseE ts = none ∨ parseE ts = some [])) := by
  refine ⟨?_, rfl, rfl, rfl, rfl, ?_⟩
  · intro ts t ht htype
    unfold parse parseE
    rw [parseAux_invalid ts [] [] ⟨t, ht, htype⟩]
    rfl
  · intro ts
    unfold parse
    cases h : parseE ts with
    | none => simp
    | some l =>
      simp only [Option.getD_some]
      constructor
      · intro hl
        subst hl
        exact Or.inr rfl
      · intro hl
        rcases hl with hl | hl
        · cases hl
        · injection hl

/-- C5 witness: an INVALID token in the input forces the empty result, and
the emptiness characterisation instantiated at the tokens of "()". -/
theorem C5_witness :
    parse [⟨"@", .INVALID⟩] = [] ∧
    (parse (tokenize "()") = [] ↔
      (parseE (tokenize "()") = none ∨ parseE (tokenize "()") = some [])) :=
  ⟨C5_empty_output.1 [⟨"@", .INVALID⟩] ⟨"@", .INVALID⟩
      (List.mem_singleton.mpr rfl) rfl,
    C5_empty_output.2.2.2.2.2 (tokenize "()")⟩

/-- C9 counterexample: tokenize "-5" succeeds with no INVALID token, yet
joining its lexemes gives the canonical string made of the characters
of "~ 5", which re-tokenizes to a single INVALID token, not to the
original sequence. -/
theorem C9_counterexample :
    ((tokenize "-5").all (fun t => decide (t.type ≠ TokenType.INVALID)) = true) ∧
    tokenize (⟨joinLexemes (tokenize "-5")⟩ : String) ≠ tokenize "-5" := by
  refine ⟨rfl, ?_⟩
  intro h
  have h1 : tokenize (⟨joinLexemes (tokenize "-5")⟩ : String) =
      [⟨"~", .INVALID⟩] := rfl
  have h2 : tokenize "-5" = [⟨"~", .OPERATOR⟩, ⟨"5", .NUMBER⟩] := rfl
  rw [h1, h2] at h
  have := congrArg List.length h
  simp at this

/-- C9 (amended): for every input string on which tokenize succeeds AND
whose token sequence contains no unary-minus pseudo-token "~", joining the
lexemes with single spaces yields a canonical string that tokenizes to the
identical sequence; a "~" token breaks the round trip because its lexeme is
not in the tokenizer's operator set. -/
theorem C9_roundtrip :
    ∀ (s : String),
      (∀ t ∈ tokenize s, t.type ≠ TokenType.INVALID) →
      (∀ t ∈ tokenize s, t.value ≠ "~") →
      tokenize (⟨joinLexemes (tokenize s)⟩ : String) = tokenize s := by
  intro s hinv htil
  cases h : tokenizeL s.toList true with
  | error c =>
    have hts : tokenize s = [⟨⟨[c]⟩, .INVALID⟩] := by
      unfold tokenize
      rw [h]
    rw [hts] at hinv
    exact absurd rfl (hinv _ (List.mem_singleton.mpr rfl))
  | ok ts =>
    have hts : tokenize s = ts := by
      unfold tokenize
      rw [h]
    rw [hts] at htil ⊢
    have hr := retok_aux s.toList.length s.toList true ts (Nat.le_refl _) h htil
    unfold tokenize
    rw [toList_mk, hr]

/-- C9 witness: the round trip holds for "3 + 4". -/
theorem C9_witness :
    tokenize (⟨joinLexemes (tokenize "3 + 4")⟩ : String) = tokenize "3 + 4" :=
  C9_roundtrip "3 + 4" (by decide) (by decide)

/-- C10: the precedence map sends "(" to the defaulted value 0, every real
operator has precedence at least 1, and therefore the precedence pop loop
never moves a "(" from the operator stack to the output. -/
theorem C10_lparen_stays :
    precedence "(" = 0 ∧
    (∀ op ∈ (["~", "^", "*", "/", "%", "+", "-"] : List String),
      1 ≤ precedence op) ∧
    (∀ (stack : List Token) (op : String), 1 ≤ precedence op →
      ∀ t ∈ (popWhileGE stack op).1, t.value ≠ "(") := by
  refine ⟨rfl, ?_, popWhileGE_no_lparen⟩
  intro op hop
  fin_cases hop <;> decide

/-- C10 witness: popping with incoming "+" from the stack [+, (] moves the
stacked "+" but not the "(". -/
theorem C10_witness :
    (Token.mk "+" .OPERATOR).value ≠ "(" :=
  C10_lparen_stays.2.2 [⟨"+", .OPERATOR⟩, ⟨"(", .PARENTHESIS⟩] "+"
    (Nat.le_of_eq rfl) ⟨"+", .OPERATOR⟩ (List.mem_singleton.mpr rfl)

end CalcEval
